import Mathlib

/-!
# Verification of the HMM notebook (Forward, Backward, Viterbi, Baum-Welch)

Shallow embedding of the algorithmic core of
`Automatic_Speech_Recognition_HMM.ipynb` over exact rationals.

Matrices are row-major lists of lists of `ℚ`; out-of-range access yields `0`
(the source only performs in-range accesses, so the embedded functions agree
with the source on all indices the source touches).  Division is the total
rational division of Lean, with `x / 0 = 0`; the numpy source produces
`nan`/`inf` on a zero denominator without raising an exception, so in both
settings a zero denominator flows junk values onward rather than signalling
an error.

The backward pass of the source builds, for each state `r`, the fixed
length-two vector `np.array((F[r, c+1], F[r, c+1]))` and multiplies it
elementwise with the length-`N` transition row and the emission column
`B[:, obs_seq[c]]` — the emission of the *current* time `c`, not `c+1`.
Numpy broadcasting makes that multiplication defined only when the other
operand has length `1` or `2`, so the embedded backward pass returns an
`Option`; `none` models the numpy broadcast error raised for `N > 2`, and
also the `IndexError` the source raises at `T = 0`, where the boundary
assignment `F[:, -1] = np.ones(row)` indexes an empty column axis.

The notebook's `viterbi` appends the per-column argmax to the process-wide
list `viterbi_path`; the embedding threads that global list explicitly as a
state argument and result.

`baum_welch` loops `while delta_lambda > 0.2` with no iteration cap; the
embedding adds a fuel argument (`none` = the source is still looping after
that many iterations).  The float threshold `x = 0.2` is embedded as the
rational `1/5`.
-/

namespace HMM

/-- Vectors are lists of rationals. -/
abbrev Vec := List ℚ

/-- Matrices are row-major lists of rows. -/
abbrev Mat := List (List ℚ)

/-- Vector entry, `0` out of range (the source never reads out of range). -/
def get1 (v : Vec) (i : ℕ) : ℚ := v.getD i 0

/-- Matrix entry `M[i][j]`, `0` out of range. -/
def get2 (M : Mat) (i j : ℕ) : ℚ := (M.getD i []).getD j 0

/-- Observation at time `t` (`obs_seq[t]` in the source). -/
def getObs (obs : List ℕ) (t : ℕ) : ℕ := obs.getD t 0

/-- A matrix has `n` rows, each of length `m`. -/
def HasShape (M : Mat) (n m : ℕ) : Prop :=
  M.length = n ∧ ∀ row ∈ M, row.length = m

/-! ## Forward algorithm (`calculate_forward_probabilities`) -/

/-- Entry `i` of column `t` of the forward lattice:
`F[:, 0] = pi * B[:, obs[0]]`, and for `c ≥ 1` the source sets
`F[r, c] = sum(F[:, c-1] * A[r, :])` and then multiplies the whole column
entrywise by `B[:, obs[c]]`, which entrywise is
`F[r, c] = B[r, obs[c]] * Σ_j F[j, c-1] * A[r, j]`.
Note the source walks the transition row of the *current* state `r`
(`A[r, j]`, not `A[j, r]`). -/
def fwdEnt (pi : Vec) (B A : Mat) (obs : List ℕ) : ℕ → ℕ → ℚ
  | 0 => fun i => get1 pi i * get2 B i (getObs obs 0)
  | t + 1 => fun i =>
      get2 B i (getObs obs (t + 1)) *
        ∑ j ∈ Finset.range A.length, fwdEnt pi B A obs t j * get2 A i j

/-- `calculate_forward_probabilities(pi, emission_probability,
transition_probability, obs_seq)`: the `N × T` forward lattice, with
`N = transition_probability.shape[0]` and `T = len(obs_seq)`. -/
def calculate_forward_probabilities (pi : Vec) (B A : Mat) (obs : List ℕ) : Mat :=
  (List.range A.length).map fun i =>
    (List.range obs.length).map fun t => fwdEnt pi B A obs t i

/-! ## Viterbi (`viterbi`, global `viterbi_path`) -/

/-- Maximum of a list, as Python's `max` on a nonempty sequence
(`0` on the empty list, which the source never hits). -/
def listMax : List ℚ → ℚ
  | [] => 0
  | x :: xs => xs.foldl max x

/-- Index of the first occurrence of `a` in a list (list length if absent). -/
def idxOf1 (a : ℚ) : List ℚ → ℕ
  | [] => 0
  | x :: xs => if x = a then 0 else idxOf1 a xs + 1

/-- Index of the first occurrence of the maximum, as
`pd.DataFrame(col).idxmax()[0]`: on ties the lowest index wins. -/
def idxmax (l : List ℚ) : ℕ := idxOf1 (listMax l) l

/-- Entry `i` of column `t` of the Viterbi lattice: the source sets
`F[r, c] = max(A[r, :] * F[:, c-1])` and then multiplies the column
entrywise by `B[:, obs[c]]`; again the row of the *current* state is used. -/
def vitEnt (pi : Vec) (B A : Mat) (obs : List ℕ) : ℕ → ℕ → ℚ
  | 0 => fun i => get1 pi i * get2 B i (getObs obs 0)
  | t + 1 => fun i =>
      get2 B i (getObs obs (t + 1)) *
        listMax ((List.range A.length).map fun j => get2 A i j * vitEnt pi B A obs t j)

/-- Column `t` of the Viterbi lattice (`F[:, c]`). -/
def vitCol (pi : Vec) (B A : Mat) (obs : List ℕ) (t : ℕ) : Vec :=
  (List.range A.length).map fun i => vitEnt pi B A obs t i

/-- The segment `viterbi` appends to the global `viterbi_path`: after the
base column and after each later column it appends that column's `idxmax`. -/
def vitPathSeg (pi : Vec) (B A : Mat) (obs : List ℕ) : List ℕ :=
  (List.range obs.length).map fun t => idxmax (vitCol pi B A obs t)

/-- `viterbi(pi, emission_probability, transition_probability, obs_seq)`.
The process-wide mutable list `viterbi_path` is threaded explicitly: the
first component of the result is the global list after the call (the list
before the call with one argmax per column appended), the second is the
returned lattice `F`. -/
def viterbi (path : List ℕ) (pi : Vec) (B A : Mat) (obs : List ℕ) : List ℕ × Mat :=
  (path ++ vitPathSeg pi B A obs,
   (List.range A.length).map fun i =>
     (List.range obs.length).map fun t => vitEnt pi B A obs t i)

/-! ## Backward algorithm (`calculate_backward_probabilities`) -/

/-- Elementwise product of two 1-D numpy arrays under broadcasting:
defined when the lengths agree or either length is `1`; otherwise the
broadcast fails (`none`). -/
def bcast2 (x y : List ℚ) : Option (List ℚ) :=
  if x.length = y.length then some (List.zipWith (fun a b => a * b) x y)
  else if x.length = 1 then some (y.map fun b => x.getD 0 0 * b)
  else if y.length = 1 then some (x.map fun a => a * y.getD 0 0)
  else none

/-- One row of one backward column: the source computes
`t = np.array((F[r, c+1], F[r, c+1]))` and
`F[r, c] = (t * A[r, :] * B[:, obs_seq[c]]).sum()`, where `prev` is column
`c+1` and `o = obs[c]` (the current time's emission index — the source
departs here from the textbook `obs[c+1]`, which is only visible when the
observation sequence is not constant). -/
def bwdRow (B A : Mat) (o : ℕ) (prev : Vec) (r : ℕ) : Option ℚ := do
  let v1 ← bcast2 [get1 prev r, get1 prev r] (A.getD r [])
  let v2 ← bcast2 v1 ((List.range B.length).map fun j => get2 B j o)
  pure v2.sum

/-- Sequence a list of optional values (all-or-nothing, like a numpy loop
that raises on the first broadcast error). -/
def optSeq {α : Type} : List (Option α) → Option (List α)
  | [] => some []
  | x :: xs => do
    let y ← x
    let ys ← optSeq xs
    pure (y :: ys)

/-- Backward column `T-1-k` (so `k = 0` is the boundary column of ones):
column `c = T-2-k` is computed from column `c+1` with emission index
`obs[c] = obs[T-2-k]`. -/
def bwdCol (B A : Mat) (obs : List ℕ) : ℕ → Option Vec
  | 0 => some (List.replicate A.length 1)
  | k + 1 => do
    let prev ← bwdCol B A obs k
    optSeq ((List.range A.length).map fun r =>
      bwdRow B A (getObs obs (obs.length - 2 - k)) prev r)

/-- `calculate_backward_probabilities(emission_probability,
transition_probability, obs_seq)`: the `N × T` backward lattice, or `none`
when the source raises: at `T = 0` the boundary assignment
`F[:, -1] = np.ones(row)` raises `IndexError` on the empty column axis, and
with `T ≥ 2` a broadcast error aborts the loop when an inner column must be
computed with `N ∉ {1, 2}`. -/
def calculate_backward_probabilities (B A : Mat) (obs : List ℕ) : Option Mat :=
  if obs.length = 0 then none
  else do
    let cols ← optSeq ((List.range obs.length).map fun c =>
      bwdCol B A obs (obs.length - 1 - c))
    pure ((List.range A.length).map fun i => cols.map fun col => get1 col i)

/-! ## Posteriors (`calculate_gamma`, `compute_xi`) -/

/-- The normalization denominator of column `t` of `gamma`:
`sum(alpha[j, t] * beta[j, t] for j in range(row))`. -/
def gammaDen (alpha beta : Mat) (A : Mat) (t : ℕ) : ℚ :=
  ∑ j ∈ Finset.range A.length, get2 alpha j t * get2 beta j t

/-- `calculate_gamma(alpha, beta, obs_seq, transition_probability)`:
`gamma[i, t] = alpha[i, t] * beta[i, t] / Σ_j alpha[j, t] * beta[j, t]`.
The source performs the division unconditionally; there is no check on the
denominator and no error path. -/
def calculate_gamma (alpha beta : Mat) (obs : List ℕ) (A : Mat) : Mat :=
  (List.range A.length).map fun i =>
    (List.range obs.length).map fun t =>
      get2 alpha i t * get2 beta i t / gammaDen alpha beta A t

/-- Entry `(i, j, t)` of `compute_xi` for `t < T-1` (the slice at `t = T-1`
of the source's zero-initialized tensor is never written and never read by
`baum_welch`). -/
def xiEnt (alpha beta : Mat) (obs : List ℕ) (B A : Mat) (i j t : ℕ) : ℚ :=
  (get2 alpha i t * get2 A i j * get2 B j (getObs obs (t + 1)) * get2 beta j (t + 1)) /
    (∑ i1 ∈ Finset.range A.length, ∑ j1 ∈ Finset.range A.length,
      get2 alpha i1 t * get2 A i1 j1 * get2 B j1 (getObs obs (t + 1)) * get2 beta j1 (t + 1))

/-! ## Baum-Welch (`baum_welch`) -/

/-- One iteration of the `while` body of `baum_welch`: E-step through the
four functions above, then the M-step re-estimates `A` and `B`
(`pi` is never updated, so its contribution to `delta_lambda` is zero),
and `delta_lambda` is the total entrywise absolute change.  `none` models
the broadcast error of the backward pass aborting the iteration. -/
def bwStep (pi : Vec) (B A : Mat) (obs : List ℕ) : Option (Mat × Mat × ℚ) := do
  let beta ← calculate_backward_probabilities B A obs
  let alpha := calculate_forward_probabilities pi B A obs
  let M := (B.getD 0 []).length
  let N := A.length
  let T := obs.length
  let gamma := calculate_gamma alpha beta obs A
  let Anew : Mat := (List.range N).map fun i => (List.range N).map fun j =>
    (∑ t ∈ Finset.range (T - 1), xiEnt alpha beta obs B A i j t) /
      (∑ t ∈ Finset.range (T - 1), get2 gamma i t)
  let Bnew : Mat := (List.range N).map fun j => (List.range M).map fun k =>
    (∑ t ∈ Finset.range T, if getObs obs t = k then get2 gamma j t else 0) /
      (∑ t ∈ Finset.range T, get2 gamma j t)
  let delta : ℚ :=
    (∑ i ∈ Finset.range N, ∑ j ∈ Finset.range N, |get2 A i j - get2 Anew i j|) +
    (∑ i ∈ Finset.range N, ∑ k ∈ Finset.range M, |get2 B i k - get2 Bnew i k|) +
    (∑ i ∈ Finset.range pi.length, |get1 pi i - get1 pi i|)
  pure (Anew, Bnew, delta)

/-- The `while delta_lambda > x` loop of `baum_welch` with threshold
`x = 0.2 = 1/5`.  The source has no iteration cap, so a fuel argument makes
the embedding total: `none` means the source is still looping after `fuel`
iterations (or the backward pass raised).  On `some (A*, B*, pi)` the source
returns exactly those re-estimated parameters. -/
def bwLoop (obs : List ℕ) : ℕ → Vec → Mat → Mat → Option (Mat × Mat × Vec)
  | 0, _, _, _ => none
  | fuel + 1, pi, B, A =>
    match bwStep pi B A obs with
    | none => none
    | some (Anew, Bnew, delta) =>
      if delta > 1/5 then bwLoop obs fuel pi Bnew Anew
      else some (Anew, Bnew, pi)

/-- `baum_welch(pi, emission_probability, transition_probability, obs_seq)`
up to `fuel` iterations of its unbounded loop. -/
def baum_welch (fuel : ℕ) (pi : Vec) (B A : Mat) (obs : List ℕ) :
    Option (Mat × Mat × Vec) :=
  bwLoop obs fuel pi B A

/-! ## Spec-only apparatus -/

/-- Modelled from the spec: the error taxonomy of §7.  The source defines no
error type and raises none of these. -/
inductive HMMError : Type
  | DimensionMismatch : HMMError
  | InvalidSymbol : HMMError
  | DegenerateNormalization : HMMError
  | InsufficientData : HMMError
  | NonConvergence : HMMError
deriving DecidableEq

/-- Modelled from the spec: §4.4 requires `gamma` to fail with
`DegenerateNormalization` if the normalization denominator is zero for any
`t`; the source (`calculate_gamma`) has no such check.  This checked variant
follows the spec's words, for comparison with the source's behaviour. -/
def gammaChecked (alpha beta : Mat) (obs : List ℕ) (A : Mat) :
    Except HMMError Mat :=
  if ∀ t < obs.length, gammaDen alpha beta A t ≠ 0 then
    Except.ok (calculate_gamma alpha beta obs A)
  else
    Except.error HMMError.DegenerateNormalization

/-- Modelled from the spec: the §8 forward/backward consistency quantity
`Σ_i α[i][t] · β[i][t]` for a lattice with `N` state rows. -/
def fbSum (alpha beta : Mat) (N t : ℕ) : ℚ :=
  ∑ i ∈ Finset.range N, get2 alpha i t * get2 beta i t

/-! ## Concrete inputs used in counterexamples and witnesses

`piX/BX/AX/obsX` is a deliberately asymmetric-transition model: the demo of
the notebook has a symmetric `A`, for which the source's `A[r, :]` indexing
is invisible.  `piDemo/BDemo/ADemo` is the notebook's own model. -/

def piX : Vec := [0, 1]

def BX : Mat := [[1/2, 1/2], [1/2, 1/2]]

def AX : Mat := [[1/2, 1/2], [1, 0]]

def obsX : List ℕ := [0, 0]

def piDemo : Vec := [1/2, 1/2]

def BDemo : Mat := [[1/2, 1/2], [3/4, 1/4]]

def ADemo : Mat := [[9/10, 1/10], [1/10, 9/10]]

/-! ## Generic access lemmas -/

theorem getD_map_range {α : Type} (f : ℕ → α) {n i : ℕ} (d : α) (h : i < n) :
    ((List.range n).map f).getD i d = f i := by
  rw [List.getD_eq_getElem?_getD, List.getElem?_map, List.getElem?_range h]
  rfl

theorem get2_forward (pi : Vec) (B A : Mat) (obs : List ℕ) {i t : ℕ}
    (hi : i < A.length) (ht : t < obs.length) :
    get2 (calculate_forward_probabilities pi B A obs) i t = fwdEnt pi B A obs t i := by
  unfold get2 calculate_forward_probabilities
  rw [getD_map_range _ ([] : List ℚ) hi, getD_map_range _ (0 : ℚ) ht]

theorem get2_viterbi_mat (path : List ℕ) (pi : Vec) (B A : Mat) (obs : List ℕ)
    {i t : ℕ} (hi : i < A.length) (ht : t < obs.length) :
    get2 (viterbi path pi B A obs).2 i t = vitEnt pi B A obs t i := by
  unfold get2 viterbi
  rw [getD_map_range _ ([] : List ℚ) hi, getD_map_range _ (0 : ℚ) ht]

/-! ## Claim C1: the forward recurrence -/

/-- C1 (counterexample): the claimed recurrence
`α[i][t] = B[i][obs[t]] · Σ_j α[j][t-1] · A[j][i]` fails on the lattice the
source actually returns, already at `i = 0`, `t = 1` of a two-state model
with an asymmetric transition matrix: the source computes `1/8`, the claim
demands `1/4`. -/
theorem C1_claim_false :
    get2 (calculate_forward_probabilities piX BX AX obsX) 0 1
      ≠ get2 BX 0 (getObs obsX 1) *
        ∑ j ∈ Finset.range AX.length,
          get2 (calculate_forward_probabilities piX BX AX obsX) j 0 * get2 AX j 0 := by
  norm_num [calculate_forward_probabilities, fwdEnt, get1, get2, getObs,
    piX, BX, AX, obsX, List.range_succ, Finset.sum_range_succ]

/-- C1 (amended): `forward` returns the `N × T` lattice with
`α[i][0] = π[i] · B[i][obs[0]]` and
`α[i][t] = B[i][obs[t]] · Σ_j α[j][t-1] · A[i][j]` — the sum walks the
transition row of the *current* state `i` (`A[i][j]`), transposed relative
to the claim's `A[j][i]`; the two agree for the symmetric demo matrix. -/
theorem C1_forward_entries (pi : Vec) (B A : Mat) (obs : List ℕ)
    (i : ℕ) (hi : i < A.length) (h0 : 0 < obs.length) :
    get2 (calculate_forward_probabilities pi B A obs) i 0
      = get1 pi i * get2 B i (getObs obs 0) ∧
    ∀ t, t + 1 < obs.length →
      get2 (calculate_forward_probabilities pi B A obs) i (t + 1)
        = get2 B i (getObs obs (t + 1)) *
          ∑ j ∈ Finset.range A.length,
            get2 (calculate_forward_probabilities pi B A obs) j t * get2 A i j := by
  constructor
  · rw [get2_forward pi B A obs hi h0]
    rfl
  · intro t ht
    rw [get2_forward pi B A obs hi ht]
    show get2 B i (getObs obs (t + 1)) *
        (∑ j ∈ Finset.range A.length, fwdEnt pi B A obs t j * get2 A i j) = _
    congr 1
    refine Finset.sum_congr rfl fun j hj => ?_
    rw [get2_forward pi B A obs (Finset.mem_range.mp hj) (Nat.lt_of_succ_lt ht)]

/-- C1 (witness): the amended recurrence, instantiated at the
asymmetric-transition model at entry `(0, 1)`. -/
theorem C1_forward_entries_witness :
    get2 (calculate_forward_probabilities piX BX AX obsX) 0 1
      = get2 BX 0 (getObs obsX 1) *
        ∑ j ∈ Finset.range AX.length,
          get2 (calculate_forward_probabilities piX BX AX obsX) j 0 * get2 AX 0 j :=
  (C1_forward_entries piX BX AX obsX 0 (by decide) (by decide)).2 0 (by decide)

/-! ## Maximum and first-argmax lemmas -/

theorem le_foldl_max (l : List ℚ) (a : ℚ) : a ≤ l.foldl max a := by
  induction l generalizing a with
  | nil => exact le_refl a
  | cons y ys ih => exact le_trans (le_max_left a y) (ih (max a y))

theorem mem_le_foldl_max (l : List ℚ) (a x : ℚ) (hx : x ∈ l) : x ≤ l.foldl max a := by
  induction l generalizing a with
  | nil => cases hx
  | cons y ys ih =>
    rcases List.mem_cons.mp hx with h | h
    · subst h
      show x ≤ List.foldl max (max a x) ys
      exact le_trans (le_max_right a x) (le_foldl_max ys (max a x))
    · exact ih (max a y) h

theorem foldl_max_mem (l : List ℚ) (a : ℚ) : l.foldl max a = a ∨ l.foldl max a ∈ l := by
  induction l generalizing a with
  | nil => exact Or.inl rfl
  | cons y ys ih =>
    rcases ih (max a y) with h | h
    · rcases max_choice a y with hm | hm
      · exact Or.inl (by rw [List.foldl_cons, h, hm])
      · exact Or.inr (by rw [List.foldl_cons, h, hm]; exact List.mem_cons_self y ys)
    · exact Or.inr (List.mem_cons_of_mem y h)

theorem listMax_mem {l : List ℚ} (h : l ≠ []) : listMax l ∈ l := by
  match l with
  | x :: xs =>
    show xs.foldl max x ∈ x :: xs
    rcases foldl_max_mem xs x with h1 | h1
    · rw [h1]
      exact List.mem_cons_self x xs
    · exact List.mem_cons_of_mem x h1

theorem le_listMax {l : List ℚ} {x : ℚ} (hx : x ∈ l) : x ≤ listMax l := by
  match l with
  | y :: ys =>
    rcases List.mem_cons.mp hx with h | h
    · exact h ▸ le_foldl_max ys y
    · exact mem_le_foldl_max ys y x h

theorem idxOf1_le {a : ℚ} {l : List ℚ} {j : ℕ} (hj : j < l.length)
    (h : l.getD j 0 = a) : idxOf1 a l ≤ j := by
  induction l generalizing j with
  | nil => cases hj
  | cons x xs ih =>
    by_cases hx : x = a
    · simp [idxOf1, hx]
    · match j with
      | 0 => exact absurd h hx
      | j' + 1 =>
        have : idxOf1 a xs ≤ j' := ih (Nat.lt_of_succ_lt_succ hj) h
        simp only [idxOf1, if_neg hx]
        omega

theorem getD_idxOf1 {a : ℚ} {l : List ℚ} (h : a ∈ l) :
    l.getD (idxOf1 a l) 0 = a := by
  induction l with
  | nil => cases h
  | cons x xs ih =>
    by_cases hx : x = a
    · simp [idxOf1, hx]
    · have hmem : a ∈ xs := by
        rcases List.mem_cons.mp h with h1 | h1
        · exact absurd h1.symm hx
        · exact h1
      simp only [idxOf1, if_neg hx]
      simpa using ih hmem

/-! ## Claim C3: the Viterbi lattice and path -/

/-- C3 (counterexample): the claimed recurrence
`δ[i][t] = B[i][obs[t]] · max_j(A[j][i] · δ[j][t-1])` fails on the lattice
the source actually returns, at `i = 0`, `t = 1` of the
asymmetric-transition model: the source computes `1/8`, the claim demands
`1/4` (so in particular `decode` does not return the claimed `δ`). -/
theorem C3_claim_false :
    get2 (viterbi [] piX BX AX obsX).2 0 1
      ≠ get2 BX 0 (getObs obsX 1) *
        listMax ((List.range AX.length).map fun j =>
          get2 AX j 0 * get2 (viterbi [] piX BX AX obsX).2 j 0) := by
  norm_num [viterbi, vitEnt, listMax, get1, get2, getObs,
    piX, BX, AX, obsX, List.range_succ, max_def]

/-- C3 (amended): `viterbi` returns the lattice with
`δ[i][0] = π[i] · B[i][obs[0]]` and
`δ[i][t] = B[i][obs[t]] · max_j(A[i][j] · δ[j][t-1])` (the transition row of
the *current* state `i`, transposed relative to the claim), and it stores no
predecessors: the global path it appends to holds, for each time `t`
separately, the index of that column's maximum, lowest index first on ties —
it is not reconstructed by backtracking. -/
theorem C3_viterbi_code (path : List ℕ) (pi : Vec) (B A : Mat) (obs : List ℕ)
    (hN : 0 < A.length) (i : ℕ) (hi : i < A.length) (h0 : 0 < obs.length) :
    get2 (viterbi path pi B A obs).2 i 0 = get1 pi i * get2 B i (getObs obs 0) ∧
    (∀ t, t + 1 < obs.length →
      get2 (viterbi path pi B A obs).2 i (t + 1)
        = get2 B i (getObs obs (t + 1)) *
          listMax ((List.range A.length).map fun j =>
            get2 A i j * get2 (viterbi path pi B A obs).2 j t)) ∧
    (viterbi path pi B A obs).1 = path ++ vitPathSeg pi B A obs ∧
    ∀ t < obs.length,
      (vitCol pi B A obs t).getD (idxmax (vitCol pi B A obs t)) 0
          = listMax (vitCol pi B A obs t) ∧
      ∀ j < A.length,
        (vitCol pi B A obs t).getD j 0 = listMax (vitCol pi B A obs t) →
          idxmax (vitCol pi B A obs t) ≤ j := by
  refine ⟨?_, ?_, rfl, ?_⟩
  · rw [get2_viterbi_mat path pi B A obs hi h0]
    rfl
  · intro t ht
    rw [get2_viterbi_mat path pi B A obs hi ht]
    show get2 B i (getObs obs (t + 1)) *
        listMax ((List.range A.length).map fun j =>
          get2 A i j * vitEnt pi B A obs t j) = _
    congr 2
    refine List.map_congr_left fun j hj => ?_
    rw [get2_viterbi_mat path pi B A obs (List.mem_range.mp hj)
      (Nat.lt_of_succ_lt ht)]
  · intro t _
    have hne : vitCol pi B A obs t ≠ [] := by
      unfold vitCol
      simp only [ne_eq, List.map_eq_nil_iff, List.range_eq_nil]
      omega
    refine ⟨getD_idxOf1 (listMax_mem hne), fun j hj hmax => ?_⟩
    have hlen : j < (vitCol pi B A obs t).length := by
      unfold vitCol
      simpa using hj
    exact idxOf1_le hlen hmax

/-- C3 (witness): the amended recurrence and path shape, instantiated at the
asymmetric-transition model at entry `(0, 1)`. -/
theorem C3_viterbi_code_witness :
    get2 (viterbi [] piX BX AX obsX).2 0 1
      = get2 BX 0 (getObs obsX 1) *
        listMax ((List.range AX.length).map fun j =>
          get2 AX 0 j * get2 (viterbi [] piX BX AX obsX).2 j 0) :=
  (C3_viterbi_code [] piX BX AX obsX (by decide) 0 (by decide) (by decide)).2.1
    0 (by decide)

/-! ## Claim C9: determinism and retained state -/

/-- C9 (counterexample): `viterbi`'s decoded path is accumulated in the
process-wide list `viterbi_path`, so a second call with identical inputs
does not reproduce the first call's path: after the first call the global
path is `[1, 0]`, after the second it is `[1, 0, 1, 0]`. -/
theorem C9_claim_false :
    (viterbi [] piDemo BDemo ADemo [0, 1]).1 = [1, 0] ∧
    (viterbi (viterbi [] piDemo BDemo ADemo [0, 1]).1 piDemo BDemo ADemo [0, 1]).1
      = [1, 0, 1, 0] ∧
    ([1, 0, 1, 0] : List ℕ) ≠ [1, 0] := by
  refine ⟨?_, ?_, by decide⟩ <;>
    norm_num [viterbi, vitPathSeg, vitCol, vitEnt, idxmax, idxOf1, listMax,
      get1, get2, getObs, piDemo, BDemo, ADemo, List.range_succ]

/-- C9 (amended): `forward` and `backward` are pure functions of their
arguments (the embedding makes this intrinsic), and the lattice returned by
`viterbi` does not depend on the retained global path; but the decoded path
does retain state: a second identical call appends the same segment again,
so the global path after it differs from the path after the first call
whenever the observation sequence is nonempty. -/
theorem C9_viterbi_state (s1 s2 : List ℕ) (pi : Vec) (B A : Mat)
    (obs : List ℕ) (h : obs ≠ []) :
    (viterbi s1 pi B A obs).2 = (viterbi s2 pi B A obs).2 ∧
    (viterbi (viterbi s1 pi B A obs).1 pi B A obs).1
      = s1 ++ vitPathSeg pi B A obs ++ vitPathSeg pi B A obs ∧
    (viterbi (viterbi s1 pi B A obs).1 pi B A obs).1 ≠ (viterbi s1 pi B A obs).1 := by
  refine ⟨rfl, rfl, fun heq => ?_⟩
  have hlen := congrArg List.length heq
  simp only [viterbi, vitPathSeg, List.length_append, List.length_map,
    List.length_range] at hlen
  have : obs.length ≠ 0 := fun h0 => h (List.length_eq_zero.mp h0)
  omega

/-- C9 (witness): the amended statement instantiated at the demo model,
projected to the inequality of the two global paths. -/
theorem C9_viterbi_state_witness :
    (viterbi (viterbi [] piDemo BDemo ADemo [0, 1]).1 piDemo BDemo ADemo [0, 1]).1
      ≠ (viterbi [] piDemo BDemo ADemo [0, 1]).1 :=
  (C9_viterbi_state [] [] piDemo BDemo ADemo [0, 1] (by decide)).2.2

/-! ## Backward-pass totality lemmas -/

theorem optSeq_isSome {α : Type} {xs : List (Option α)}
    (h : ∀ x ∈ xs, x.isSome) : (optSeq xs).isSome := by
  induction xs with
  | nil => rfl
  | cons x xs ih =>
    obtain ⟨y, hy⟩ := Option.isSome_iff_exists.mp (h x (List.mem_cons_self x xs))
    obtain ⟨ys, hys⟩ := Option.isSome_iff_exists.mp
      (ih fun z hz => h z (List.mem_cons_of_mem x hz))
    simp [optSeq, hy, hys]

theorem getD_row_length {A : Mat} {r : ℕ} (hr : r < A.length)
    (hA : ∀ row ∈ A, row.length = A.length) :
    (A.getD r []).length = A.length := by
  have h1 : A.getD r ([] : List ℚ) = A[r] := by
    rw [List.getD_eq_getElem?_getD, List.getElem?_eq_getElem hr]
    rfl
  rw [h1]
  exact hA A[r] (List.getElem_mem hr)

theorem bwdRow_isSome {B A : Mat} (o : ℕ) (prev : Vec) {r : ℕ}
    (hr : r < A.length) (hA : ∀ row ∈ A, row.length = A.length)
    (hB : B.length = A.length) (h2 : A.length ≤ 2) (hN : 0 < A.length) :
    (bwdRow B A o prev r).isSome := by
  have hrow := getD_row_length hr hA
  have h12 : A.length = 1 ∨ A.length = 2 := by omega
  rcases h12 with h1 | h1
  · obtain ⟨a, ha⟩ := List.length_eq_one.mp (hrow.trans h1)
    simp only [bwdRow]
    rw [ha, hB, h1]
    simp [bcast2, List.range_succ]
  · obtain ⟨a, b, hab⟩ := List.length_eq_two.mp (hrow.trans h1)
    simp only [bwdRow]
    rw [hab, hB, h1]
    simp [bcast2, List.range_succ]

theorem bwdRow_none {B A : Mat} (o : ℕ) (prev : Vec) {r : ℕ}
    (hr : r < A.length) (hA : ∀ row ∈ A, row.length = A.length)
    (h3 : 2 < A.length) :
    bwdRow B A o prev r = none := by
  have hrow := getD_row_length hr hA
  simp only [bwdRow, bcast2, List.length_cons, List.length_nil, hrow]
  rw [if_neg (by omega), if_neg (by omega), if_neg (by omega)]
  rfl

theorem bwdCol_succ (B A : Mat) (obs : List ℕ) (k : ℕ) :
    bwdCol B A obs (k + 1)
      = (bwdCol B A obs k).bind fun prev =>
          optSeq ((List.range A.length).map fun r =>
            bwdRow B A (getObs obs (obs.length - 2 - k)) prev r) := rfl

theorem bwdCol_isSome {B A : Mat} {obs : List ℕ}
    (hA : ∀ row ∈ A, row.length = A.length) (hB : B.length = A.length)
    (h2 : A.length ≤ 2) (hN : 0 < A.length) (k : ℕ) :
    (bwdCol B A obs k).isSome := by
  induction k with
  | zero => rfl
  | succ k ih =>
    obtain ⟨prev, hprev⟩ := Option.isSome_iff_exists.mp ih
    rw [bwdCol_succ, hprev]
    show (optSeq ((List.range A.length).map fun r =>
      bwdRow B A (getObs obs (obs.length - 2 - k)) prev r)).isSome
    refine optSeq_isSome fun x hx => ?_
    obtain ⟨r, hr, rfl⟩ := List.mem_map.mp hx
    exact bwdRow_isSome _ prev (List.mem_range.mp hr) hA hB h2 hN

theorem bwdCol_none {B A : Mat} {obs : List ℕ}
    (hA : ∀ row ∈ A, row.length = A.length) (h3 : 2 < A.length) (k : ℕ) :
    bwdCol B A obs (k + 1) = none := by
  cases hprev : bwdCol B A obs k with
  | none => rw [bwdCol_succ, hprev]; rfl
  | some prev =>
    rw [bwdCol_succ, hprev]
    show optSeq ((List.range A.length).map fun r =>
      bwdRow B A (getObs obs (obs.length - 2 - k)) prev r) = none
    obtain ⟨n, hn⟩ : ∃ n, A.length = n + 1 := ⟨A.length - 1, by omega⟩
    rw [hn, List.range_succ_eq_map, List.map_cons,
      bwdRow_none _ prev (by omega) hA h3]
    rfl

/-! ## Claim C10: backward totality -/

/-- C10 (counterexample): `backward` is total not *only* for `N = 2`: for a
one-state model numpy broadcasting accepts the length-two vector against the
length-one row, and the call returns a lattice (with a doubled inner value,
`β[0][0] = 2`), so totality also holds at `N = 1`. -/
theorem C10_claim_false :
    calculate_backward_probabilities [[1]] [[1]] [0, 0] = some [[2, 1]] := by
  norm_num [calculate_backward_probabilities, bwdCol, bwdRow, bcast2, optSeq,
    get1, get2, getObs, List.range_succ]

/-- C10 (amended): for a shape-correct model, `backward` succeeds exactly
when `T = 1` (the loop body never runs) or `T ≥ 2 ∧ N ≤ 2`.  With `T ≥ 2`,
every model with `N > 2` states hits the numpy broadcast error of the
length-two vector `(F[r, c+1], F[r, c+1])` — as the claim says — but models
with `N = 1` are accepted too, so totality is not restricted to exactly
`N = 2`; and at `T = 0` the call fails for every `N` with an `IndexError`
at the boundary assignment. -/
theorem C10_backward_totality (B A : Mat) (obs : List ℕ)
    (hN : 0 < A.length) (hA : ∀ row ∈ A, row.length = A.length)
    (hB : B.length = A.length) :
    (calculate_backward_probabilities B A obs).isSome
      ↔ (obs.length = 1 ∨ (2 ≤ obs.length ∧ A.length ≤ 2)) := by
  cases obs with
  | nil => simp [calculate_backward_probabilities]
  | cons o rest =>
    have hlen0 : (o :: rest).length ≠ 0 := by simp
    cases rest with
    | nil =>
      constructor
      · intro _
        exact Or.inl rfl
      · intro _
        rfl
    | cons o2 r2 =>
      constructor
      · intro hsome
        refine Or.inr ⟨by simp only [List.length_cons]; try omega, ?_⟩
        by_contra h3
        push_neg at h3
        have hnone : calculate_backward_probabilities B A (o :: o2 :: r2)
            = none := by
          unfold calculate_backward_probabilities
          rw [if_neg hlen0]
          obtain ⟨m, hm⟩ : ∃ m, (o :: o2 :: r2).length = m + 2 :=
            ⟨r2.length, rfl⟩
          rw [hm, List.range_succ_eq_map, List.map_cons]
          have hix : m + 2 - 1 - 0 = m + 1 := by omega
          rw [hix, bwdCol_none hA h3 m]
          rfl
        rw [hnone] at hsome
        cases hsome
      · intro h
        have h2 : A.length ≤ 2 := by
          rcases h with h1 | h1
          · exfalso
            simp only [List.length_cons] at h1
            omega
          · exact h1.2
        unfold calculate_backward_probabilities
        rw [if_neg hlen0]
        have hcols : (optSeq (((List.range (o :: o2 :: r2).length)).map fun c =>
            bwdCol B A (o :: o2 :: r2) ((o :: o2 :: r2).length - 1 - c))).isSome :=
          optSeq_isSome fun x hx => by
            obtain ⟨c, _, rfl⟩ := List.mem_map.mp hx
            exact bwdCol_isSome hA hB h2 hN _
        obtain ⟨cols, hcols'⟩ := Option.isSome_iff_exists.mp hcols
        rw [hcols']
        rfl

/-- C10 (witness): the amended totality criterion applied to a shape-correct
three-state model with two observations: the source call fails there. -/
theorem C10_backward_totality_witness :
    ¬ (calculate_backward_probabilities [[1], [1], [1]]
        [[1/3, 1/3, 1/3], [1/3, 1/3, 1/3], [1/3, 1/3, 1/3]] [0, 0]).isSome := by
  intro hsome
  have h := (C10_backward_totality [[1], [1], [1]]
    [[1/3, 1/3, 1/3], [1/3, 1/3, 1/3], [1/3, 1/3, 1/3]] [0, 0]
    (by decide) (by simp) (by decide)).mp hsome
  rcases h with h | h
  · simp at h
  · have := h.2
    simp at this

/-! ## Claims C7 and C8: the state-occupation posterior -/

theorem get2_gamma (alpha beta : Mat) (obs : List ℕ) (A : Mat) {i t : ℕ}
    (hi : i < A.length) (ht : t < obs.length) :
    get2 (calculate_gamma alpha beta obs A) i t
      = get2 alpha i t * get2 beta i t / gammaDen alpha beta A t := by
  unfold get2 calculate_gamma
  rw [getD_map_range _ ([] : List ℚ) hi, getD_map_range _ (0 : ℚ) ht]
  rfl

/-- C7: for any lattices whose column denominators are all nonzero,
`calculate_gamma` returns
`γ[i][t] = α[i][t]·β[i][t] / Σ_j α[j][t]·β[j][t]`, and every column of `γ`
sums to exactly `1` (so a fortiori within `±1e-9`). -/
theorem C7_gamma_normalization (alpha beta : Mat) (obs : List ℕ) (A : Mat)
    (hden : ∀ u < obs.length, gammaDen alpha beta A u ≠ 0)
    (t : ℕ) (ht : t < obs.length) :
    (∀ i < A.length, get2 (calculate_gamma alpha beta obs A) i t
        = get2 alpha i t * get2 beta i t / gammaDen alpha beta A t) ∧
    ∑ i ∈ Finset.range A.length, get2 (calculate_gamma alpha beta obs A) i t = 1 := by
  refine ⟨fun i hi => get2_gamma alpha beta obs A hi ht, ?_⟩
  have hsum : ∑ i ∈ Finset.range A.length, get2 (calculate_gamma alpha beta obs A) i t
      = (∑ i ∈ Finset.range A.length, get2 alpha i t * get2 beta i t)
          / gammaDen alpha beta A t := by
    rw [Finset.sum_div]
    exact Finset.sum_congr rfl fun i hi =>
      get2_gamma alpha beta obs A (Finset.mem_range.mp hi) ht
  rw [hsum]
  exact div_self (hden t ht)

/-- C7 (witness): a two-state, one-step lattice with nonzero denominator:
the `γ` column sums to `1`. -/
theorem C7_gamma_normalization_witness :
    ∑ i ∈ Finset.range ([[1, 1], [1, 1]] : Mat).length,
      get2 (calculate_gamma [[1], [1]] [[1], [1]] [0] [[1, 1], [1, 1]]) i 0 = 1 :=
  (C7_gamma_normalization [[1], [1]] [[1], [1]] [0] [[1, 1], [1, 1]]
    (fun u hu => by
      have hu1 : u = 0 := by
        simp only [List.length_cons, List.length_nil] at hu
        omega
      subst hu1
      norm_num [gammaDen, get2, Finset.sum_range_succ])
    0 (by decide)).2

/-- C8 (counterexample): at an input whose column denominator is zero the
source's `calculate_gamma` does not fail at all — it performs the division
regardless and returns a lattice (all-zero column in the exact embedding;
`nan` under numpy, with no exception), while the spec's checked variant
reports `DegenerateNormalization`.  Hence "fails with
`DegenerateNormalization` iff some denominator is zero" is false of the
source: there is no error path in `calculate_gamma`. -/
theorem C8_claim_false :
    gammaDen [[0], [0]] [[0], [0]] [[1, 0], [0, 1]] 0 = 0 ∧
    calculate_gamma [[0], [0]] [[0], [0]] [0] [[1, 0], [0, 1]] = [[0], [0]] ∧
    gammaChecked [[0], [0]] [[0], [0]] [0] [[1, 0], [0, 1]]
      = Except.error HMMError.DegenerateNormalization := by
  refine ⟨by norm_num [gammaDen, get2, Finset.sum_range_succ], ?_, ?_⟩
  · norm_num [calculate_gamma, gammaDen, get2, List.range_succ,
      Finset.sum_range_succ]
  · have h : ¬ ∀ t < ([0] : List ℕ).length,
        gammaDen [[0], [0]] [[0], [0]] [[1, 0], [0, 1]] t ≠ 0 := by
      push_neg
      exact ⟨0, by decide, by norm_num [gammaDen, get2, Finset.sum_range_succ]⟩
    unfold gammaChecked
    rw [if_neg h]

/-- C8 (amended): `gamma` never fails: when the denominator of column `t`
is zero it still returns a lattice, whose column `t` is all zeros under the
exact-arithmetic embedding (numpy propagates `nan` there, silently); the
spec's checked variant is the one that reports `DegenerateNormalization`. -/
theorem C8_gamma_never_fails (alpha beta : Mat) (obs : List ℕ) (A : Mat)
    (t : ℕ) (ht : t < obs.length) (h0 : gammaDen alpha beta A t = 0) :
    (∀ i < A.length, get2 (calculate_gamma alpha beta obs A) i t = 0) ∧
    gammaChecked alpha beta obs A
      = Except.error HMMError.DegenerateNormalization := by
  constructor
  · intro i hi
    rw [get2_gamma alpha beta obs A hi ht, h0, div_zero]
  · have h : ¬ ∀ u < obs.length, gammaDen alpha beta A u ≠ 0 := by
      push_neg
      exact ⟨t, ht, h0⟩
    unfold gammaChecked
    rw [if_neg h]

/-- C8 (witness): the amended statement at a concrete degenerate input,
projected to the `γ[0][0] = 0` instance. -/
theorem C8_gamma_never_fails_witness :
    get2 (calculate_gamma [[1], [1]] [[0], [0]] [0] [[1, 0], [0, 1]]) 0 0 = 0 :=
  (C8_gamma_never_fails [[1], [1]] [[0], [0]] [0] [[1, 0], [0, 1]] 0 (by decide)
    (by norm_num [gammaDen, get2, Finset.sum_range_succ])).1 0 (by decide)

/-! ## Claim C2: the backward recurrence -/

/-- C2 (code bug): on the notebook's own model with `obs = [0, 0, 0]` the
source's backward lattice is `[[441/1600, 21/40, 1], [841/1600, 29/40, 1]]`,
but the claimed (and notebook-documented) recurrence
`β[i][t] = Σ_j A[i][j] · B[j][obs[t+1]] · β[j][t+1]` demands
`β[0][0] = 465/1600`: the source reuses the current state's own
`β[r][t+1]` in place of `β[j][t+1]`. -/
theorem C2_backward_bug :
    calculate_backward_probabilities BDemo ADemo [0, 0, 0]
      = some [[441/1600, 21/40, 1], [841/1600, 29/40, 1]] ∧
    get2 [[441/1600, 21/40, 1], [841/1600, 29/40, 1]] 0 0
      ≠ ∑ j ∈ Finset.range ADemo.length,
          get2 ADemo 0 j * get2 BDemo j (getObs [0, 0, 0] 1) *
            get2 [[441/1600, 21/40, 1], [841/1600, 29/40, 1]] j 1 := by
  constructor
  · norm_num [calculate_backward_probabilities, bwdCol, bwdRow, bcast2, optSeq,
      get1, get2, getObs, BDemo, ADemo, List.range_succ]
  · norm_num [get2, getObs, BDemo, ADemo, Finset.sum_range_succ]

/-! ## Claim C6: forward/backward consistency -/

/-- C6 (code bug): with the asymmetric-transition model
(`π = [1/2, 1/2]`, `A = [[1/2, 1/2], [1, 0]]`, `B = [[1/2, 1/2], [3/4, 1/4]]`,
`obs = [0, 1]`) the quantity `Σ_i α[i][t]·β[i][t]` is `11/32` at `t = 0` but
`7/32` at `t = 1`: it is not constant across `t`, because the source's
backward lattice is wrong (own-β reuse and current-time emission index) and
its forward pass transposes the transition indexing. -/
theorem C6_consistency_fails :
    calculate_backward_probabilities BDemo AX [0, 1] = some [[5/8, 1], [1/2, 1]] ∧
    fbSum (calculate_forward_probabilities piDemo BDemo AX [0, 1])
      [[5/8, 1], [1/2, 1]] 2 0 = 11/32 ∧
    fbSum (calculate_forward_probabilities piDemo BDemo AX [0, 1])
      [[5/8, 1], [1/2, 1]] 2 1 = 7/32 ∧
    (11/32 : ℚ) ≠ 7/32 := by
  refine ⟨?_, ?_, ?_, by norm_num⟩
  · norm_num [calculate_backward_probabilities, bwdCol, bwdRow, bcast2, optSeq,
      get1, get2, getObs, BDemo, AX, List.range_succ]
  all_goals
    norm_num [fbSum, calculate_forward_probabilities, fwdEnt, get1, get2,
      getObs, piDemo, BDemo, AX, List.range_succ, Finset.sum_range_succ]

/-! ## Claim C4: Baum-Welch -/

set_option maxHeartbeats 4000000 in
/-- C4 (code bug): a row-stochastic input on which `baum_welch` returns
after its first iteration (`delta_lambda = 73/396 ≈ 0.184 ≤ 0.2`), yet the
returned transition matrix is not row-stochastic: its row sums are `21/22`
and `21/20`, both further than `1e-9` from `1`.  The faulty backward lattice
feeds `γ` and `ξ` that no longer satisfy `Σ_j ξ[i][j][t] = γ[i][t]`, so the
M-step quotient rows of `A` do not sum to `1`.  (The emission rows do still
sum to `1` here; the notebook's own stored training output likewise shows
`A` row sums of about `0.838` and `1.116`.) -/
theorem C4_train_not_row_stochastic :
    baum_welch 1 [1/3, 2/3] [[1/4, 3/4], [2/5, 3/5]] [[0, 1], [1, 0]] [0, 1, 1]
      = some ([[0, 21/22], [21/20, 0]],
              [[2/9, 7/9], [5/12, 7/12]],
              [1/3, 2/3]) ∧
    ([1/3, 2/3] : Vec).sum = 1 ∧
    (([[0, 1], [1, 0]] : Mat).getD 0 []).sum = 1 ∧
    (([[0, 1], [1, 0]] : Mat).getD 1 []).sum = 1 ∧
    (([[1/4, 3/4], [2/5, 3/5]] : Mat).getD 0 []).sum = 1 ∧
    (([[1/4, 3/4], [2/5, 3/5]] : Mat).getD 1 []).sum = 1 ∧
    (([[0, 21/22], [21/20, 0]] : Mat).getD 0 []).sum = 21/22 ∧
    (([[0, 21/22], [21/20, 0]] : Mat).getD 1 []).sum = 21/20 ∧
    |(21/22 : ℚ) - 1| > 1/1000000000 ∧
    |(21/20 : ℚ) - 1| > 1/1000000000 := by
  refine ⟨?_, by norm_num, by norm_num, by norm_num, by norm_num, by norm_num,
    by norm_num, by norm_num,
    by norm_num [abs_eq_max_neg, max_def], by norm_num [abs_eq_max_neg, max_def]⟩
  norm_num [baum_welch, bwLoop, bwStep, calculate_backward_probabilities,
    calculate_forward_probabilities, calculate_gamma, gammaDen, xiEnt, fwdEnt,
    bwdCol, bwdRow, bcast2, optSeq, get1, get2, getObs,
    List.range_succ, Finset.sum_range_succ, abs_eq_max_neg, max_def]

end HMM
